import Mathlib

/-!
# Tabular export and column projection (`internal/reporting.go`, `cmd/main.go`)

A shallow embedding of the column projectors and of the table builder of the
`/processData` handler.  Go `string` values are modelled as Lean `String`
(sequences of Unicode code points), Go slices as `List`, Go `int` as `Int`, and
a run-time panic of the Go program as the `error` side of `Except Panic`.
The library functions the code calls (`strings.TrimSpace`, `strings.Split`,
`fmt.Sprintf`, `time.Time.Format`, `encoding/csv`) are modelled after the Go
standard library.
-/

namespace Reporting

/-- Run-time panics the projection code can raise. -/
inductive Panic where
  | indexOutOfRange
  | sliceBoundsOutOfRange
  deriving DecidableEq, Repr

deriving instance DecidableEq for Except

/-- Go `unicode.IsSpace`: the Latin-1 spaces `\t \n \v \f \r`, space, U+0085,
U+00A0, and the code points with the Unicode White_Space property. -/
def isSpace (c : Char) : Bool :=
  let n := c.toNat
  (9 ≤ n && n ≤ 13) || n == 32 || n == 0x85 || n == 0xA0 || n == 0x1680 ||
    (0x2000 ≤ n && n ≤ 0x200A) || n == 0x2028 || n == 0x2029 || n == 0x202F ||
    n == 0x205F || n == 0x3000

/-- Go `strings.TrimSpace`: the string without its leading and trailing white
space. -/
def TrimSpace (s : String) : String :=
  String.mk ((s.data.dropWhile isSpace).reverse.dropWhile isSpace).reverse

/-- The loop of `indexOf`, started at position `i`. -/
def indexOfFrom (target : String) : List String → Nat → Int
  | [], _ => -1
  | s :: rest, i => if s = target then (i : Int) else indexOfFrom target rest (i + 1)

/-- Go `indexOf(slice, target)`: the position of the first element equal to
`target`, or `-1`. -/
def indexOf (slice : List String) (target : String) : Int :=
  indexOfFrom target slice 0

/-- Go `s[i]` on a slice with an `int` index: panics out of range. -/
def index (s : List α) (i : Int) : Except Panic α :=
  if i < 0 then .error .indexOutOfRange
  else match s[i.toNat]? with
    | some v => .ok v
    | none => .error .indexOutOfRange

/-- Go `s[1:]`: panics when the slice is empty. -/
def sliceFrom1 (s : List α) : Except Panic (List α) :=
  match s with
  | [] => .error .sliceBoundsOutOfRange
  | _ :: rest => .ok rest

/-- The inner loop of `FilterColumnsFromMinIO` (lines 161-166): runs over the
requested columns, appending to `newRow`. -/
def minioRowLoop (data : List (List String)) (row : List String) :
    List String → List String → Except Panic (List String)
  | [], newRow => .ok newRow
  | col :: cols, newRow => do
    let col := TrimSpace col
    let header ← index data 0
    let idx := indexOf header col
    if idx != -1 then
      let v ← index row idx
      minioRowLoop data row cols (newRow ++ [v])
    else
      minioRowLoop data row cols newRow

/-- The outer loop of `FilterColumnsFromMinIO` (lines 159-168): runs over the
data rows, appending to `outputData`. -/
def minioLoop (data : List (List String)) (columnsToKeep : List String) :
    List (List String) → List (List String) → Except Panic (List (List String))
  | [], outputData => .ok outputData
  | row :: rows, outputData => do
    let newRow ← minioRowLoop data row columnsToKeep []
    minioLoop data columnsToKeep rows (outputData ++ [newRow])

/-- The table `outputData` built by `FilterColumnsFromMinIO` (lines 158-168)
from the decoded table `data` and the requested columns. -/
def FilterColumnsFromMinIO (data : List (List String)) (columnsToKeep : List String) :
    Except Panic (List (List String)) := do
  let outputData := [columnsToKeep]
  let rows ← sliceFrom1 data
  minioLoop data columnsToKeep rows outputData

/-- A Go `map[string]int`. -/
abbrev GoMap := String → Option Int

/-- The loop filling `colIndexes` in `FilterColumnsFromCSV` (lines 48-50). -/
def colIndexesLoop : List String → Nat → GoMap → GoMap
  | [], _, m => m
  | col :: rest, i, m =>
    colIndexesLoop rest (i + 1) (fun k => if k = col then some (i : Int) else m k)

/-- The inner loop of `FilterColumnsFromCSV` (lines 55-59). -/
def csvRowLoop (colIndexes : GoMap) (row : List String) :
    List String → List String → Except Panic (List String)
  | [], newRow => .ok newRow
  | col :: cols, newRow =>
    match colIndexes col with
    | some idx => do
      let v ← index row idx
      csvRowLoop colIndexes row cols (newRow ++ [v])
    | none => csvRowLoop colIndexes row cols newRow

/-- The outer loop of `FilterColumnsFromCSV` (lines 53-65): `written` holds
the records handed to the CSV writer so far. -/
def csvLoop (colIndexes : GoMap) (columnsToKeep : List String) :
    List (List String) → List (List String) → Except Panic (List (List String))
  | [], written => .ok written
  | row :: rows, written => do
    let newRow ← csvRowLoop colIndexes row columnsToKeep []
    csvLoop colIndexes columnsToKeep rows (written ++ [newRow])

/-- The records `FilterColumnsFromCSV` hands to the CSV writer, in order
(lines 36-65). -/
def FilterColumnsFromCSV (data : List (List String)) (columnsToKeep : List String) :
    Except Panic (List (List String)) := do
  let filteredHeader := [] ++ columnsToKeep
  let written := [filteredHeader]
  let header ← index data 0
  let colIndexes := colIndexesLoop header 0 (fun _ => none)
  let rows ← sliceFrom1 data
  csvLoop colIndexes columnsToKeep rows written

/-- The loop of `FilterColumns` collecting `keepIndices` (lines 119-125): for
one requested name, every header position holding it. -/
def keepIndicesFor (col : String) : List String → Nat → List Nat
  | [], _ => []
  | headerCol :: rest, i =>
    if headerCol = col then i :: keepIndicesFor col rest (i + 1)
    else keepIndicesFor col rest (i + 1)

/-- The pure projector `FilterColumns` (lines 110-140): an empty table gives
`nil`; otherwise every row, the header included, is cut to `keepIndices`. -/
def FilterColumns (data : List (List String)) (columnsToKeep : List String) :
    List (List String) :=
  match data with
  | [] => []
  | header :: _ =>
    let keepIndices := columnsToKeep.flatMap (fun col => keepIndicesFor col header 0)
    data.map (fun row => keepIndices.filterMap (fun i => row[i]?))

/-- The loop of Go `strings.Split(s, ",")` over the characters of `s`; `cur` is
the piece being read. -/
def splitCommaLoop : List Char → List Char → List (List Char)
  | [], cur => [cur]
  | c :: rest, cur =>
    if c = ',' then cur :: splitCommaLoop rest [] else splitCommaLoop rest (cur ++ [c])

/-- Go `strings.Split(shablon, ",")` as called by `generateAndSendReport`. -/
def SplitComma (shablon : String) : List String :=
  (splitCommaLoop shablon.data []).map String.mk

/-- A name without leading and without trailing white space. -/
def noSurroundingSpace (s : String) : Prop :=
  (∀ c, s.data.head? = some c → isSpace c = false) ∧
    (∀ c, s.data.getLast? = some c → isSpace c = false)

/-! ### The `/processData` handler (`cmd/main.go`) -/

/-- The flag characters skipped after `%` by Go `fmt` (`doPrintf`). -/
def isFlag (c : Char) : Bool :=
  c = '#' || c = '0' || c = '+' || c = '-' || c = ' '

/-- Go `fmt.parsenum`: reads decimal digits; gives the number, whether one was
read, and the unread characters.  A number past `1e6` gives up and skips to the
end of the range. -/
def parsenum : List Char → Nat → Bool → Nat × Bool × List Char
  | [], num, isnum => (num, isnum, [])
  | c :: rest, num, isnum =>
    if '0' ≤ c ∧ c ≤ '9' then
      if num > 1000000 then (0, false, [])
      else parsenum rest (num * 10 + (c.toNat - '0'.toNat)) true
    else (num, isnum, c :: rest)

/-- Go `fmt.parseArgNumber` on a format that starts at `[`: the number of
characters to skip and whether a well-formed `[n]` was read. -/
def parseArgNumber (format : List Char) : Nat × Bool :=
  if format.length < 3 then (1, false)
  else
    let body := format.drop 1
    let k := body.findIdx (fun c => c == ']')
    if k < body.length then
      let r := parsenum (body.take k) 0 false
      if r.2.1 && r.2.2.isEmpty then (k + 2, true) else (k + 2, false)
    else (1, false)

/-- Go `(*pp).argNumber` for a call without operands: the unread format,
`found`, and whether `goodArgNum` is left untouched (every index is out of
range, so reading `[` clears it). -/
def argNumber0 (format : List Char) : List Char × Bool × Bool :=
  match format with
  | '[' :: _ =>
    let r := parseArgNumber format
    (format.drop r.1, r.2, false)
  | _ => (format, false, true)

/-- One verb of Go `(*pp).doPrintf` for a call without operands, on the format
after `%`: the text written and the unread format (`none` when the format ends
inside the verb). -/
def verb0 (r0 : List Char) : List Char × Option (List Char) :=
  let r1 := r0.dropWhile isFlag
  let a1 := argNumber0 r1
  -- width
  let w : List Char × List Char × Bool × Bool :=
    match a1.1 with
    | '*' :: r => ("%!(BADWIDTH)".data, r, false, a1.2.2)
    | r2 =>
      let n := parsenum r2 0 false
      ([], n.2.2, a1.2.1, a1.2.2 && !(a1.2.1 && n.2.1))
  -- precision
  let pr : List Char × List Char × Bool × Bool :=
    match w.2.1 with
    | '.' :: r =>
      let good := w.2.2.2 && !w.2.2.1
      let a2 := argNumber0 r
      match a2.1 with
      | '*' :: r5 => ("%!(BADPREC)".data, r5, false, good && a2.2.2)
      | r4 => ([], (parsenum r4 0 false).2.2, a2.2.1, good && a2.2.2)
    | r3 => ([], r3, w.2.2.1, w.2.2.2)
  let a3 := if pr.2.2.1 then (pr.2.1, true, true) else argNumber0 pr.2.1
  let good := pr.2.2.2 && a3.2.2
  match a3.1 with
  | [] => (w.1 ++ pr.1 ++ "%!(NOVERB)".data, none)
  | verb :: r7 =>
    let piece :=
      if verb = '%' then ['%']
      else if !good then '%' :: '!' :: verb :: "(BADINDEX)".data
      else '%' :: '!' :: verb :: "(MISSING)".data
    (w.1 ++ pr.1 ++ piece, some r7)

/-- The format loop of Go `(*pp).doPrintf` for a call without operands; `fuel`
bounds the number of verbs. -/
def doPrintf0 : Nat → List Char → List Char
  | 0, _ => []
  | fuel + 1, format =>
    let lit := format.takeWhile (fun c => c != '%')
    match format.dropWhile (fun c => c != '%') with
    | [] => lit
    | _ :: r0 =>
      match verb0 r0 with
      | (out, none) => lit ++ out
      | (out, some rest) => lit ++ out ++ doPrintf0 fuel rest

/-- Go `fmt.Sprintf(format)` with no operand, as in `fmt.Sprintf(stat.OrgName)`. -/
def Sprintf0 (format : String) : String :=
  String.mk (doPrintf0 (format.length + 1) format.data)

/-- Go `fmt.Sprintf("%d", x)` for an `int`. -/
def SprintfD (x : Int) : String :=
  if x < 0 then "-" ++ Nat.repr x.natAbs else Nat.repr x.natAbs

/-- Go `time.appendInt`: an optional minus sign and the decimal digits padded
with zeros to `width`. -/
def appendInt (x : Int) (width : Nat) : String :=
  let digits := (Nat.repr x.natAbs).data
  String.mk ((if x < 0 then ['-'] else []) ++
    List.replicate (width - digits.length) '0' ++ digits)

/-- The calendar reading of a Go `time.Time` in its own location, as `Format`
sees it. -/
structure Time where
  year : Int
  month : Nat
  day : Nat
  hour : Nat
  minute : Nat
  second : Nat
  deriving DecidableEq, Repr

/-- Go `formatTime`: `t.Format("2006-01-02 15:04:05")`. -/
def formatTime (t : Time) : String :=
  appendInt t.year 4 ++ "-" ++ appendInt t.month 2 ++ "-" ++ appendInt t.day 2 ++ " " ++
    appendInt t.hour 2 ++ ":" ++ appendInt t.minute 2 ++ ":" ++ appendInt t.second 2

/-- Go `internal.Stats`. -/
structure Stats where
  OrgName : String
  SrcIP : String
  SrcPort : Int
  DstIP : String
  DstPort : Int
  PacketCount : Int
  ByteCount : Int
  Timestamp : Time
  deriving DecidableEq, Repr

/-- The header record of the handler (line 109). -/
def header : List String :=
  ["org_name", "SrcIP", "SrcPort", "DstIP", "DstPort", "PacketCount", "ByteCount", "Timestamp"]

/-- The record the handler builds for one `Stats` value (lines 117-124). -/
def record (stat : Stats) : List String :=
  [Sprintf0 stat.OrgName,
    stat.SrcIP, SprintfD stat.SrcPort,
    stat.DstIP, SprintfD stat.DstPort,
    SprintfD stat.PacketCount,
    SprintfD stat.ByteCount,
    formatTime stat.Timestamp]

/-- The records the handler hands to the CSV writer, in order (lines 108-129). -/
def handlerTable (resultStats : List Stats) : List (List String) :=
  header :: resultStats.map record

/-- The handler's `outputFileName` (line 93), the path given to `os.Create`. -/
def handlerOutputFileName (outputFileID : String) : String :=
  "output_ID" ++ outputFileID ++ ".csv"

/-- The handler's `outputFilePath` (line 94), the object name in the bucket. -/
def handlerOutputFilePath (outputFileID : String) : String :=
  "output/" ++ handlerOutputFileName outputFileID

/-- The `outputFileName` of `FilterColumnsFromMinIO` (line 151). -/
def minioOutputFileName (outputFileID : String) : String :=
  "filtered_output_ID" ++ outputFileID ++ ".csv"

/-- The path given to `os.Remove` by `FilterColumnsFromMinIO` (line 185), which
the handler calls with `filteredOutputFileID`. -/
def minioRemovedPath (filteredOutputFileID : String) : String :=
  minioOutputFileName filteredOutputFileID

/-- The path given to `os.Remove` by `generateAndSendReport` (line 167). -/
def reportRemovedPath (outputFileID : String) : String :=
  handlerOutputFilePath outputFileID

/-! ### The tabular codec (`encoding/csv` with its default settings)

`SaveToCSV` and `FilterColumnsFromMinIO` write every record with a
`csv.Writer` (`Comma = ','`, `UseCRLF = false`); `ReadCSV` and
`ReadCSVFromMinIO` decode with `csv.Reader.ReadAll` (`Comma = ','`, no
comment character, `FieldsPerRecord = 0`, `LazyQuotes = false`,
`TrimLeadingSpace = false`).  The byte stream is modelled as the list of its
characters, and reading or writing it never fails with an I/O error. -/

/-- Go `(*csv.Writer).fieldNeedsQuotes`. -/
def fieldNeedsQuotes (field : List Char) : Bool :=
  if field = [] then false
  else if field = ['\\', '.'] then true
  else if field.any (fun c => c == '\n' || c == '\r' || c == '"' || c == ',') then true
  else match field with
    | [] => false
    | r1 :: _ => isSpace r1

/-- The body of a quoted field as `(*csv.Writer).Write` emits it: a quote is
doubled, every other character is copied. -/
def quoteBody : List Char → List Char
  | [] => []
  | c :: rest => if c = '"' then '"' :: '"' :: quoteBody rest else c :: quoteBody rest

/-- One field as `(*csv.Writer).Write` emits it. -/
def writeField (field : List Char) : List Char :=
  if fieldNeedsQuotes field then '"' :: quoteBody field ++ ['"'] else field

/-- The fields of a record as `(*csv.Writer).Write` emits them, a comma before
every field but the first. -/
def writeFields : List (List Char) → List Char
  | [] => []
  | [field] => writeField field
  | field :: rest => writeField field ++ ',' :: writeFields rest

/-- Go `(*csv.Writer).Write`: the fields and a line feed. -/
def csvWrite (record : List (List Char)) : List Char :=
  writeFields record ++ ['\n']

/-- Go `(*csv.Writer).WriteAll`, and the loop of `SaveToCSV`: every record in
order. -/
def csvWriteAll : List (List (List Char)) → List Char
  | [] => []
  | record :: rest => csvWrite record ++ csvWriteAll rest

/-- The errors of `csv.Reader`; `fuel` marks a run of the model that was given
too little fuel. -/
inductive CsvError where
  | bareQuote
  | quote
  | fieldCount
  | fuel
  deriving DecidableEq, Repr

/-- Go `bufio.Reader.ReadSlice('\n')`: the characters up to and including the
first line feed, the unread input, and whether a line feed was found. -/
def readSlice : List Char → List Char × List Char × Bool
  | [] => ([], [], false)
  | c :: rest =>
    if c = '\n' then (['\n'], rest, true)
    else
      let r := readSlice rest
      (c :: r.1, r.2.1, r.2.2)

/-- Go `(*csv.Reader).readLine`: the next line, the unread input, and whether
the error is `io.EOF`.  A last line without line feed loses a final carriage
return; a line ending in carriage return and line feed ends in a line feed. -/
def readLine (input : List Char) : List Char × List Char × Bool :=
  let r := readSlice input
  let atEOF := !r.2.2
  let line := if r.1.length > 0 && atEOF then
      (match r.1.reverse with
        | '\r' :: front => front.reverse
        | _ => r.1)
    else r.1
  let eof := if r.1.length > 0 && atEOF then false else atEOF
  let line := match line.reverse with
    | '\n' :: '\r' :: front => (('\n' :: front).reverse)
    | _ => line
  (line, r.2.1, eof)

/-- Go `lengthNL`: 1 when the line ends in a line feed, else 0. -/
def lengthNL (line : List Char) : Nat :=
  if line.getLast? = some '\n' then 1 else 0

/-- The loop of `readRecord` over one quoted field, entered after the opening
quote.  Gives the field, the rest of the line when a comma follows (`none`
when the record ends), and the unread input. -/
def quotedField : Nat → List Char → List Char → List Char →
    Except CsvError (List Char × Option (List Char) × List Char)
  | 0, _, _, _ => .error .fuel
  | fuel + 1, line, input, buf =>
    let i := line.findIdx (fun c => c == '"')
    if i < line.length then
      let buf := buf ++ line.take i
      let line := line.drop (i + 1)
      match line with
      | '"' :: line => quotedField fuel line input (buf ++ ['"'])
      | ',' :: line => .ok (buf, some line, input)
      | _ =>
        if lengthNL line = line.length then .ok (buf, none, input)
        else .error .quote
    else if line.length > 0 then
      let r := readLine input
      quotedField fuel r.1 r.2.1 (buf ++ line)
    else .error .quote

/-- The `parseField` loop of `readRecord`: splits the line into fields, reading
further lines inside quoted fields.  Gives the fields and the unread input. -/
def parseFields : Nat → List Char → List Char → List (List Char) →
    Except CsvError (List (List Char) × List Char)
  | 0, _, _, _ => .error .fuel
  | fuel + 1, line, input, fields =>
    if line.length = 0 || line.head? != some '"' then
      let i := line.findIdx (fun c => c == ',')
      let field := if i < line.length then line.take i
        else line.take (line.length - lengthNL line)
      if field.any (fun c => c == '"') then .error .bareQuote
      else if i < line.length then
        parseFields fuel (line.drop (i + 1)) input (fields ++ [field])
      else .ok (fields ++ [field], input)
    else
      match quotedField fuel (line.drop 1) input [] with
      | .error e => .error e
      | .ok (field, some line, input) => parseFields fuel line input (fields ++ [field])
      | .ok (field, none, input) => .ok (fields ++ [field], input)

/-- Go `(*csv.Reader).readRecord` without the field-count check: skips empty
lines; `none` stands for `io.EOF`. -/
def readRecord : Nat → List Char → Except CsvError (Option (List (List Char) × List Char))
  | 0, _ => .error .fuel
  | fuel + 1, input =>
    let r := readLine input
    if !r.2.2 && r.1.length = lengthNL r.1 then readRecord fuel r.2.1
    else if r.2.2 then .ok none
    else
      match parseFields (fuel + 1) r.1 r.2.1 [] with
      | .error e => .error e
      | .ok res => .ok (some res)

/-- The loop of Go `(*csv.Reader).ReadAll`, with the field-count check of
`readRecord`; `fieldsPerRecord` is 0 until the first record is read. -/
def readAllLoop : Nat → List Char → Nat → List (List (List Char)) →
    Except CsvError (List (List (List Char)))
  | 0, _, _, _ => .error .fuel
  | fuel + 1, input, fieldsPerRecord, records =>
    match readRecord (fuel + 1) input with
    | .error e => .error e
    | .ok none => .ok records
    | .ok (some (record, input)) =>
      if fieldsPerRecord > 0 then
        if record.length ≠ fieldsPerRecord then .error .fieldCount
        else readAllLoop fuel input fieldsPerRecord (records ++ [record])
      else readAllLoop fuel input record.length (records ++ [record])

/-- Go `(*csv.Reader).ReadAll` on the whole input. -/
def csvReadAll (input : List Char) : Except CsvError (List (List (List Char))) :=
  readAllLoop (input.length + 1) input 0 []

/-- The bytes `SaveToCSV` (and the `WriteAll` of `FilterColumnsFromMinIO`)
produce for a table. -/
def SaveToCSV (data : List (List String)) : String :=
  String.mk (csvWriteAll (data.map (fun row => row.map String.data)))

/-- The table `ReadCSV` (and `ReadCSVFromMinIO`) decode from the bytes. -/
def ReadCSV (bytes : String) : Except CsvError (List (List String)) :=
  match csvReadAll bytes.data with
  | .error e => .error e
  | .ok records => .ok (records.map (fun row => row.map String.mk))

/-- Whether a carriage return is directly followed by a line feed. -/
def hasCRLF : List Char → Bool
  | [] => false
  | [_] => false
  | a :: b :: rest => (a == '\r' && b == '\n') || hasCRLF (b :: rest)

/-- How `parseFields` goes on after a field: with the rest of the line when a
comma followed, or ending the record. -/
def afterField (fuel : Nat) (fields : List (List Char))
    (K : Option (List Char) × List Char) : Except CsvError (List (List Char) × List Char) :=
  match K.1 with
  | some line => parseFields fuel line K.2 fields
  | none => .ok (fields, K.2)

/-- No carriage return of the stream is its last character or directly
followed by a line feed. -/
def crSafe : List Char → Bool
  | [] => true
  | a :: rest =>
    (if a = '\r' then
      (match rest with
        | [] => false
        | b :: _ => b != '\n')
    else true) && crSafe rest

/-- The fields the claim lists for one data row: for each requested name, in
requested order, whose trimmed form occurs in the header, the field of the row
at the position `indexOf` gives. -/
def projectedFields (header row cols : List String) : List String :=
  (cols.filter (fun c => decide (TrimSpace c ∈ header))).map
    (fun c => row.getD (indexOf header (TrimSpace c)).toNat "")

/-! ## Properties of the projection -/

theorem indexOfFrom_eq (target : String) (l : List String) (i : Nat) :
    indexOfFrom target l i
      = if target ∈ l then ((i + l.indexOf target : Nat) : Int) else -1 := by
  induction l generalizing i with
  | nil => simp [indexOfFrom]
  | cons s rest ih =>
    by_cases h : s = target
    · subst h
      simp [indexOfFrom]
    · have h2 : ¬ target = s := fun e => h e.symm
      simp only [indexOfFrom, h, if_false, ih, List.mem_cons, h2, false_or,
        List.indexOf_cons_ne _ h]
      split
      · congr 1
        omega
      · rfl

theorem indexOf_eq (header : List String) (c : String) :
    indexOf header c = if c ∈ header then ((header.indexOf c : Nat) : Int) else -1 := by
  simp [indexOf, indexOfFrom_eq]

theorem indexOf_of_mem {header : List String} {c : String} (h : c ∈ header) :
    indexOf header c = ((header.indexOf c : Nat) : Int) := by
  simp [indexOf_eq, h]

theorem indexOf_of_not_mem {header : List String} {c : String} (h : c ∉ header) :
    indexOf header c = -1 := by
  simp [indexOf_eq, h]

theorem index_natCast (s : List String) (k : Nat) (h : k < s.length) :
    index s (k : Int) = .ok (s.getD k "") := by
  have h0 : ¬ ((k : Int) < 0) := by omega
  simp [index, h0, List.getElem?_eq_getElem h, List.getD_eq_getElem _ _ h]

theorem minioRowLoop_eq (header : List String) (rows : List (List String))
    (row : List String) (hrow : row.length = header.length)
    (cols acc : List String) :
    minioRowLoop (header :: rows) row cols acc
      = .ok (acc ++ projectedFields header row cols) := by
  induction cols generalizing acc with
  | nil => simp [minioRowLoop, projectedFields]
  | cons c cols ih =>
    have hhead : index (header :: rows) 0 = .ok header := by simp [index]
    by_cases hm : TrimSpace c ∈ header
    · have hlt : header.indexOf (TrimSpace c) < row.length := by
        rw [hrow]; exact List.indexOf_lt_length.mpr hm
      have hne : (indexOf header (TrimSpace c) != -1) = true := by
        rw [indexOf_of_mem hm]; simp
      have hidx : index row (indexOf header (TrimSpace c))
          = .ok (row.getD (indexOf header (TrimSpace c)).toNat "") := by
        rw [indexOf_of_mem hm, index_natCast _ _ hlt]; simp
      simp only [minioRowLoop, hhead, bind, Except.bind, hne, if_true, hidx, ih]
      simp [projectedFields, hm]
    · have hne : (indexOf header (TrimSpace c) != -1) = false := by
        rw [indexOf_of_not_mem hm]; simp
      simp only [minioRowLoop, hhead, bind, Except.bind, hne, ih]
      simp [projectedFields, hm]

theorem minioLoop_eq (header : List String) (all : List (List String))
    (cols : List String) (rows : List (List String))
    (hwf : ∀ row ∈ rows, row.length = header.length) (acc : List (List String)) :
    minioLoop (header :: all) cols rows acc
      = .ok (acc ++ rows.map (fun row => projectedFields header row cols)) := by
  induction rows generalizing acc with
  | nil => simp [minioLoop]
  | cons row rows ih =>
    have hrow : row.length = header.length := hwf row (by simp)
    have hrest : ∀ r ∈ rows, r.length = header.length :=
      fun r hr => hwf r (by simp [hr])
    simp only [minioLoop, minioRowLoop_eq header all row hrow, bind, Except.bind,
      ih hrest]
    simp

theorem FilterColumnsFromMinIO_eq (header : List String) (rows : List (List String))
    (cols : List String) (hwf : ∀ row ∈ rows, row.length = header.length) :
    FilterColumnsFromMinIO (header :: rows) cols
      = .ok (cols :: rows.map (fun row => projectedFields header row cols)) := by
  simp [ FilterColumnsFromMinIO, sliceFrom1, bind, Except.bind,
    minioLoop_eq header rows cols rows hwf]

theorem indexOf_first (header : List String) (c : String) (h : c ∈ header) :
    ∃ k : Nat, indexOf header c = (k : Int) ∧ k < header.length ∧
      header[k]? = some c ∧ ∀ j, j < k → header[j]? ≠ some c := by
  refine ⟨header.indexOf c, indexOf_of_mem h, List.indexOf_lt_length.mpr h, ?_, ?_⟩
  · have hlt := List.indexOf_lt_length.mpr h
    rw [List.getElem?_eq_getElem hlt]
    simp
  · intro j hj hcontra
    have hjlt : j < header.length := lt_trans hj (List.indexOf_lt_length.mpr h)
    rw [List.getElem?_eq_getElem hjlt] at hcontra
    have hEq : header[j] = c := by simpa using hcontra
    have hj2 : j < header.findIdx (fun x => x == c) := hj
    have := List.not_of_lt_findIdx hj2
    simp [hEq] at this

theorem colIndexesLoop_eq (l : List String) (hl : l.Nodup) (i : Nat) (m : GoMap)
    (k : String) :
    colIndexesLoop l i m k
      = if k ∈ l then some ((i + l.indexOf k : Nat) : Int) else m k := by
  induction l generalizing i m with
  | nil => simp [colIndexesLoop]
  | cons col rest ih =>
    have hnd := List.nodup_cons.mp hl
    rw [colIndexesLoop, ih hnd.2]
    by_cases hk : k = col
    · subst hk
      simp [hnd.1]
    · have hk2 : col ≠ k := fun e => hk e.symm
      simp only [List.mem_cons, hk, false_or, if_false, List.indexOf_cons_ne _ hk2]
      split
      · congr 2
        omega
      · rfl

theorem TrimSpace_eq_self (s : String) (h : noSurroundingSpace s) : TrimSpace s = s := by
  obtain ⟨hhead, hlast⟩ := h
  have h1 : s.data.dropWhile isSpace = s.data := by
    cases hd : s.data with
    | nil => rfl
    | cons c cs =>
      have := hhead c (by simp [hd])
      simp [List.dropWhile, this]
  have h2 : s.data.reverse.dropWhile isSpace = s.data.reverse := by
    cases hd : s.data.reverse with
    | nil => rfl
    | cons c cs =>
      have hl : s.data.getLast? = some c := by
        rw [List.getLast?_eq_head?_reverse, hd]; rfl
      have := hlast c hl
      simp [List.dropWhile, this]
  simp [TrimSpace, h1, h2]

theorem csvRowLoop_eq (header : List String) (hnd : header.Nodup)
    (row : List String) (hrow : row.length = header.length)
    (cols : List String) (htrim : ∀ c ∈ cols, noSurroundingSpace c)
    (acc : List String) :
    csvRowLoop (colIndexesLoop header 0 (fun _ => none)) row cols acc
      = .ok (acc ++ projectedFields header row cols) := by
  induction cols generalizing acc with
  | nil => simp [csvRowLoop, projectedFields]
  | cons c cols ih =>
    have hc : TrimSpace c = c := TrimSpace_eq_self c (htrim c (by simp))
    have hrest : ∀ d ∈ cols, noSurroundingSpace d := fun d hd => htrim d (by simp [hd])
    by_cases hm : c ∈ header
    · have hlt : header.indexOf c < row.length := by
        rw [hrow]; exact List.indexOf_lt_length.mpr hm
      have hmap : colIndexesLoop header 0 (fun _ => none) c
          = some ((header.indexOf c : Nat) : Int) := by
        simp [colIndexesLoop_eq header hnd, hm]
      rw [csvRowLoop, hmap]
      simp only [index_natCast _ _ hlt, bind, Except.bind, ih hrest]
      simp [projectedFields, hc, hm, indexOf_of_mem hm]
    · have hmap : colIndexesLoop header 0 (fun _ => none) c = none := by
        simp [colIndexesLoop_eq header hnd, hm]
      rw [csvRowLoop, hmap]
      simp only [ih hrest]
      simp [projectedFields, hc, hm]

theorem csvLoop_eq (header : List String) (hnd : header.Nodup)
    (cols : List String) (htrim : ∀ c ∈ cols, noSurroundingSpace c)
    (rows : List (List String))
    (hwf : ∀ row ∈ rows, row.length = header.length) (acc : List (List String)) :
    csvLoop (colIndexesLoop header 0 (fun _ => none)) cols rows acc
      = .ok (acc ++ rows.map (fun row => projectedFields header row cols)) := by
  induction rows generalizing acc with
  | nil => simp [csvLoop]
  | cons row rows ih =>
    have hrow : row.length = header.length := hwf row (by simp)
    have hrest : ∀ r ∈ rows, r.length = header.length :=
      fun r hr => hwf r (by simp [hr])
    simp only [csvLoop, csvRowLoop_eq header hnd row hrow cols htrim, bind, Except.bind,
      ih hrest]
    simp

/-! ## Properties of the codec -/

theorem readSlice_cons_ne (c : Char) (s : List Char) (h : c ≠ '\n') :
    readSlice (c :: s) = (c :: (readSlice s).1, (readSlice s).2.1, (readSlice s).2.2) := by
  simp [readSlice, h]

theorem readSlice_nl (s : List Char) : readSlice ('\n' :: s) = (['\n'], s, true) := by
  simp [readSlice]

theorem readSlice_split (s : List Char) (h : '\n' ∈ s) :
    ∃ pre post, s = pre ++ '\n' :: post ∧ '\n' ∉ pre ∧
      readSlice s = (pre ++ ['\n'], post, true) := by
  induction s with
  | nil => simp at h
  | cons c s ih =>
    by_cases hc : c = '\n'
    · subst hc
      exact ⟨[], s, rfl, by simp, readSlice_nl s⟩
    · have hmem : '\n' ∈ s := by
        rcases List.mem_cons.mp h with h1 | h1
        · exact absurd h1.symm hc
        · exact h1
      obtain ⟨pre, post, hs, hpre, hrs⟩ := ih hmem
      refine ⟨c :: pre, post, by simp [hs], ?_, ?_⟩
      · simp only [List.mem_cons, not_or]
        exact ⟨fun e => hc e.symm, hpre⟩
      · rw [readSlice_cons_ne c s hc, hrs]
        rfl

theorem readSlice_append (f T : List Char) (h : '\n' ∉ f) :
    readSlice (f ++ T) = (f ++ (readSlice T).1, (readSlice T).2.1, (readSlice T).2.2) := by
  induction f with
  | nil => simp
  | cons c f ih =>
    simp only [List.mem_cons, not_or] at h
    have hc : c ≠ '\n' := fun e => h.1 e.symm
    rw [List.cons_append, readSlice_cons_ne c _ hc, ih h.2]
    rfl

theorem crSafe_cons (c : Char) (s : List Char) :
    crSafe (c :: s) = ((if c = '\r' then
      (match s with
        | [] => false
        | b :: _ => b != '\n')
      else true) && crSafe s) := rfl

theorem crSafe_tail (c : Char) (s : List Char) (h : crSafe (c :: s) = true) :
    crSafe s = true := by
  rw [crSafe_cons, Bool.and_eq_true] at h
  exact h.2

theorem crSafe_suffix (a b : List Char) (h : crSafe (a ++ b) = true) : crSafe b = true := by
  induction a with
  | nil => simpa using h
  | cons c a ih => exact ih (crSafe_tail c _ h)

theorem crSafe_not_crlf (front post : List Char) :
    crSafe (front ++ '\r' :: '\n' :: post) = false := by
  induction front with
  | nil => simp [crSafe]
  | cons c front ih =>
    rw [List.cons_append, crSafe_cons, ih, Bool.and_false]

theorem readLine_eq (s : List Char) (hnl : '\n' ∈ s) (hsafe : crSafe s = true) :
    readLine s = ((readSlice s).1, (readSlice s).2.1, false) := by
  obtain ⟨pre, post, hs, _, hrs⟩ := readSlice_split s hnl
  have hrev : (pre ++ ['\n']).reverse = '\n' :: pre.reverse := by simp
  have hpre : ∀ front, pre.reverse ≠ '\r' :: front := by
    intro front hcon
    have hp : pre = front.reverse ++ ['\r'] := by
      have := congrArg List.reverse hcon
      simpa using this
    rw [hs, hp] at hsafe
    have := crSafe_not_crlf front.reverse post
    simp only [List.append_assoc, List.singleton_append] at hsafe
    rw [this] at hsafe
    exact Bool.noConfusion hsafe
  simp only [readLine, hrs, Bool.not_true, Bool.and_false, Bool.false_eq_true, if_false, hrev]
  cases hpr : pre.reverse with
  | nil => rfl
  | cons d front =>
    by_cases hd : d = '\r'
    · subst hd
      exact absurd hpr (hpre front)
    · simp [hd]

theorem quotedField_cons (fuel : Nat) (c : Char) (L input buf : List Char)
    (hc : c ≠ '"') (hL : L ≠ []) :
    quotedField fuel (c :: L) input buf = quotedField fuel L input (buf ++ [c]) := by
  cases fuel with
  | zero => rfl
  | succ fuel =>
    have hcb : (c == '"') = false := by simpa using hc
    have hidx : (c :: L).findIdx (fun c => c == '"') = L.findIdx (fun c => c == '"') + 1 := by
      simp [List.findIdx_cons, hcb]
    have hLpos : 0 < L.length := List.length_pos.mpr hL
    rw [quotedField, quotedField, hidx]
    by_cases hi : L.findIdx (fun c => c == '"') < L.length
    · have hi2 : L.findIdx (fun c => c == '"') + 1 < (c :: L).length := by
        simpa using hi
      simp only [hi, hi2, if_true, List.take_succ_cons, List.drop_succ_cons,
        List.append_assoc, List.singleton_append]
    · have hi2 : ¬ L.findIdx (fun c => c == '"') + 1 < (c :: L).length := by
        simpa using hi
      have h3 : (c :: L).length > 0 := by simp
      simp only [hi, hi2, if_false, h3, hLpos, gt_iff_lt, if_true,
        List.append_assoc, List.singleton_append]

theorem quotedField_close_comma (fuel : Nat) (L input buf : List Char) :
    quotedField (fuel + 1) ('"' :: ',' :: L) input buf = .ok (buf, some L, input) := by
  simp [quotedField, List.findIdx_cons]

theorem quotedField_close_nl (fuel : Nat) (input buf : List Char) :
    quotedField (fuel + 1) ['"', '\n'] input buf = .ok (buf, none, input) := by
  simp [quotedField, lengthNL, List.findIdx_cons]

theorem quotedField_quote (fuel : Nat) (L input buf : List Char) :
    quotedField (fuel + 1) ('"' :: '"' :: L) input buf
      = quotedField fuel L input (buf ++ ['"']) := by
  simp [quotedField, List.findIdx_cons]

theorem quotedField_nl (fuel : Nat) (X buf : List Char) (hnl : '\n' ∈ X)
    (hsafe : crSafe X = true) :
    quotedField (fuel + 1) ['\n'] X buf
      = quotedField fuel (readSlice X).1 (readSlice X).2.1 (buf ++ ['\n']) := by
  simp [quotedField, readLine_eq X hnl hsafe, List.findIdx_cons]

theorem readSlice_fst_ne_nil (s : List Char) (h : s ≠ []) : (readSlice s).1 ≠ [] := by
  cases s with
  | nil => exact absurd rfl h
  | cons c s =>
    by_cases hc : c = '\n'
    · subst hc
      simp [readSlice_nl]
    · simp [readSlice_cons_ne c s hc]

theorem quoteBody_cons_quote (f : List Char) :
    quoteBody ('"' :: f) = '"' :: '"' :: quoteBody f := by
  simp [quoteBody]

theorem quoteBody_cons_ne (c : Char) (f : List Char) (h : c ≠ '"') :
    quoteBody (c :: f) = c :: quoteBody f := by
  simp [quoteBody, h]

theorem quotedField_body (T : List Char) (K : Option (List Char) × List Char)
    (hT : ∀ fuel buf, fuel > ('"' :: T).length →
      quotedField fuel (readSlice ('"' :: T)).1 (readSlice ('"' :: T)).2.1 buf = .ok (buf, K))
    (hnl : '\n' ∈ T) (f : List Char) :
    ∀ (fuel : Nat) (buf : List Char),
      crSafe (quoteBody f ++ '"' :: T) = true →
      fuel > (quoteBody f ++ '"' :: T).length →
      quotedField fuel (readSlice (quoteBody f ++ '"' :: T)).1
          (readSlice (quoteBody f ++ '"' :: T)).2.1 buf
        = .ok (buf ++ f, K) := by
  induction f with
  | nil =>
    intro fuel buf _ hfuel
    simpa [quoteBody] using hT fuel buf (by simpa [quoteBody] using hfuel)
  | cons c f ih =>
    intro fuel buf hsafe hfuel
    have hXne : quoteBody f ++ '"' :: T ≠ [] := by simp
    have hXnl : '\n' ∈ quoteBody f ++ '"' :: T := by simp [hnl]
    by_cases hq : c = '"'
    · subst hq
      rw [quoteBody_cons_quote] at hsafe hfuel ⊢
      have hs2 : crSafe (quoteBody f ++ '"' :: T) = true :=
        crSafe_tail _ _ (crSafe_tail _ _ hsafe)
      obtain ⟨n, rfl⟩ : ∃ n, fuel = n + 1 := ⟨fuel - 1, by simp at hfuel; omega⟩
      have hn : n > (quoteBody f ++ '"' :: T).length := by
        simp at hfuel ⊢; omega
      simp only [List.cons_append]
      rw [readSlice_cons_ne '"' _ (by decide), readSlice_cons_ne '"' _ (by decide)]
      simp only []
      rw [quotedField_quote, ih n _ hs2 hn]
      simp
    · rw [quoteBody_cons_ne c f hq] at hsafe hfuel ⊢
      have hs2 : crSafe (quoteBody f ++ '"' :: T) = true := crSafe_tail _ _ hsafe
      simp only [List.cons_append] at hsafe hfuel ⊢
      by_cases hn : c = '\n'
      · subst hn
        obtain ⟨n, rfl⟩ : ∃ n, fuel = n + 1 := ⟨fuel - 1, by simp at hfuel; omega⟩
        have hn : n > (quoteBody f ++ '"' :: T).length := by
          simp at hfuel ⊢; omega
        rw [readSlice_nl]
        simp only []
        rw [quotedField_nl n _ buf hXnl hs2, ih n _ hs2 hn]
        simp
      · have hfuel2 : fuel > (quoteBody f ++ '"' :: T).length := by
          simp at hfuel ⊢; omega
        rw [readSlice_cons_ne c _ hn]
        simp only []
        rw [quotedField_cons fuel c _ _ buf hq (readSlice_fst_ne_nil _ hXne),
          ih fuel _ hs2 hfuel2]
        simp

theorem findIdx_append_cons_self (a : Char) (f L : List Char) (h : a ∉ f) :
    (f ++ a :: L).findIdx (fun c => c == a) = f.length := by
  induction f with
  | nil => simp [List.findIdx_cons]
  | cons c f ih =>
    simp only [List.mem_cons, not_or] at h
    have hc : (c == a) = false := by
      simpa using fun e : c = a => h.1 e.symm
    simp [List.findIdx_cons, hc, ih h.2]

theorem findIdx_append_not_mem (a b : Char) (f : List Char) (h : a ∉ f) (hb : b ≠ a) :
    (f ++ [b]).findIdx (fun c => c == a) = f.length + 1 := by
  induction f with
  | nil =>
    have hba : (b == a) = false := by simpa using hb
    simp [List.findIdx_cons, hba]
  | cons c f ih =>
    simp only [List.mem_cons, not_or] at h
    have hc : (c == a) = false := by
      simpa using fun e : c = a => h.1 e.symm
    simp [List.findIdx_cons, hc, ih h.2]

theorem head_append_cons_ne (a b : Char) (f L : List Char) (h : a ∉ f) (hb : b ≠ a) :
    ((f ++ b :: L).length = 0 || (f ++ b :: L).head? != some a) = true := by
  cases f with
  | nil => simp [hb]
  | cons c f =>
    simp only [List.mem_cons, not_or] at h
    have hc : c ≠ a := fun e => h.1 e.symm
    simp [hc]

theorem any_quote_false (f : List Char) (h : '"' ∉ f) :
    f.any (fun c => c == '"') = false := by
  simp only [List.any_eq_false, beq_iff_eq]
  intro c hc e
  exact h (e ▸ hc)

theorem parseFields_unquoted_comma (fuel : Nat) (f L input : List Char)
    (acc : List (List Char)) (hq : '"' ∉ f) (hc : ',' ∉ f) :
    parseFields (fuel + 1) (f ++ ',' :: L) input acc
      = parseFields fuel L input (acc ++ [f]) := by
  have hidx := findIdx_append_cons_self ',' f L hc
  have hhead := head_append_cons_ne '"' ',' f L hq (by decide)
  have hlt : f.length < (f ++ ',' :: L).length := by simp
  rw [parseFields]
  simp only [hhead, if_true, hidx, hlt, List.take_left, any_quote_false f hq,
    Bool.false_eq_true, if_false]
  congr 1
  simp

theorem parseFields_unquoted_nl (fuel : Nat) (f input : List Char)
    (acc : List (List Char)) (hq : '"' ∉ f) (hc : ',' ∉ f) :
    parseFields (fuel + 1) (f ++ ['\n']) input acc = .ok (acc ++ [f], input) := by
  have hidx := findIdx_append_not_mem ',' '\n' f hc (by decide)
  have hhead := head_append_cons_ne '"' '\n' f [] hq (by decide)
  have hlt : ¬ f.length + 1 < (f ++ ['\n']).length := by simp
  have hnl : lengthNL (f ++ ['\n']) = 1 := by simp [lengthNL]
  have htake : List.take ((f ++ ['\n']).length - 1) (f ++ ['\n']) = f := by simp
  rw [parseFields]
  simp only [hhead, if_true, hidx, hlt, if_false, hnl, htake, any_quote_false f hq,
    Bool.false_eq_true]

theorem parseFields_quoted (fuel : Nat) (L input : List Char) (acc : List (List Char)) :
    parseFields (fuel + 1) ('"' :: L) input acc
      = match quotedField fuel L input [] with
        | .error e => .error e
        | .ok (field, some line, input) => parseFields fuel line input (acc ++ [field])
        | .ok (field, none, input) => .ok (acc ++ [field], input) := by
  simp [parseFields]

theorem not_needsQuotes_chars (f : List Char) (h : fieldNeedsQuotes f = false) :
    '\n' ∉ f ∧ '\r' ∉ f ∧ '"' ∉ f ∧ ',' ∉ f := by
  by_cases hnil : f = []
  · subst hnil
    simp
  · by_cases hbs : f = ['\\', '.']
    · simp [fieldNeedsQuotes, hbs] at h
    · by_cases hany :
        f.any (fun c => c == '\n' || c == '\r' || c == '"' || c == ',') = true
      · simp [fieldNeedsQuotes, hnil, hbs, hany] at h
      · simp only [Bool.not_eq_true, List.any_eq_false, Bool.or_eq_true, beq_iff_eq,
          not_or] at hany
        refine ⟨?_, ?_, ?_, ?_⟩ <;> intro hm
        · exact (hany _ hm).1.1.1 rfl
        · exact (hany _ hm).1.1.2 rfl
        · exact (hany _ hm).1.2 rfl
        · exact (hany _ hm).2 rfl

theorem writeField_quoted (f : List Char) (h : fieldNeedsQuotes f = true) :
    writeField f = '"' :: (quoteBody f ++ ['"']) := by
  simp [writeField, h]

theorem writeField_plain (f : List Char) (h : fieldNeedsQuotes f = false) :
    writeField f = f := by
  simp [writeField, h]

theorem writeFields_cons_cons (f g : List Char) (fs : List (List Char)) :
    writeFields (f :: g :: fs) = writeField f ++ ',' :: writeFields (g :: fs) := rfl

theorem writeFields_single (f : List Char) : writeFields [f] = writeField f := rfl

theorem parseFields_field (f T : List Char) (acc : List (List Char))
    (K : Option (List Char) × List Char) (hnl : '\n' ∈ T)
    (hclose : ∀ fuel buf, fuel > ('"' :: T).length →
      quotedField fuel (readSlice ('"' :: T)).1 (readSlice ('"' :: T)).2.1 buf = .ok (buf, K))
    (hplain : ∀ fuel, '"' ∉ f → ',' ∉ f → '\n' ∉ f →
      parseFields (fuel + 1) (f ++ (readSlice T).1) (readSlice T).2.1 acc
        = afterField fuel (acc ++ [f]) K)
    (fuel : Nat) (hsafe : crSafe (writeField f ++ T) = true)
    (hfuel : fuel + 1 > (writeField f ++ T).length) :
    parseFields (fuel + 1) (readSlice (writeField f ++ T)).1
        (readSlice (writeField f ++ T)).2.1 acc
      = afterField fuel (acc ++ [f]) K := by
  by_cases hq : fieldNeedsQuotes f = true
  · rw [writeField_quoted f hq] at hsafe hfuel ⊢
    have hre : '"' :: (quoteBody f ++ ['"']) ++ T = '"' :: (quoteBody f ++ '"' :: T) := by
      simp
    rw [hre] at hsafe hfuel ⊢
    have hs2 := crSafe_tail _ _ hsafe
    have hf2 : fuel > (quoteBody f ++ '"' :: T).length := by
      simp at hfuel ⊢; omega
    rw [readSlice_cons_ne '"' _ (by decide)]
    simp only []
    rw [parseFields_quoted, quotedField_body T K hclose hnl f fuel [] hs2 hf2]
    obtain ⟨K1, K2⟩ := K
    cases K1 <;> simp [afterField]
  · have hq2 : fieldNeedsQuotes f = false := by simpa using hq
    obtain ⟨h1, _, h3, h4⟩ := not_needsQuotes_chars f hq2
    rw [writeField_plain f hq2, readSlice_append f T h1]
    simp only []
    exact hplain fuel h3 h4 h1

theorem parseFields_writeFields (fs : List (List Char)) :
    ∀ (f : List Char) (acc : List (List Char)) (rest : List Char) (fuel : Nat),
      crSafe (writeFields (f :: fs) ++ '\n' :: rest) = true →
      fuel > (writeFields (f :: fs) ++ '\n' :: rest).length →
      parseFields fuel (readSlice (writeFields (f :: fs) ++ '\n' :: rest)).1
          (readSlice (writeFields (f :: fs) ++ '\n' :: rest)).2.1 acc
        = .ok (acc ++ f :: fs, rest) := by
  induction fs with
  | nil =>
    intro f acc rest fuel hsafe hfuel
    obtain ⟨n, rfl⟩ : ∃ n, fuel = n + 1 := ⟨fuel - 1, by omega⟩
    rw [writeFields_single] at hsafe hfuel ⊢
    have := parseFields_field f ('\n' :: rest) acc (none, rest) (by simp)
      (by
        intro fuel buf hf
        obtain ⟨m, rfl⟩ : ∃ m, fuel = m + 1 := ⟨fuel - 1, by omega⟩
        rw [readSlice_cons_ne '"' _ (by decide), readSlice_nl]
        exact quotedField_close_nl m rest buf)
      (by
        intro fuel h3 h4 _
        rw [readSlice_nl]
        exact parseFields_unquoted_nl fuel f rest acc h3 h4)
      n hsafe hfuel
    simpa [afterField] using this
  | cons g fs ih =>
    intro f acc rest fuel hsafe hfuel
    obtain ⟨n, rfl⟩ : ∃ n, fuel = n + 1 := ⟨fuel - 1, by omega⟩
    rw [writeFields_cons_cons] at hsafe hfuel ⊢
    have hre : writeField f ++ ',' :: writeFields (g :: fs) ++ '\n' :: rest
        = writeField f ++ ',' :: (writeFields (g :: fs) ++ '\n' :: rest) := by simp
    rw [hre] at hsafe hfuel ⊢
    have hs2 : crSafe (writeFields (g :: fs) ++ '\n' :: rest) = true :=
      crSafe_tail _ _ (crSafe_suffix _ _ hsafe)
    have hf2 : n > (writeFields (g :: fs) ++ '\n' :: rest).length := by
      simp at hfuel ⊢; omega
    have := parseFields_field f (',' :: (writeFields (g :: fs) ++ '\n' :: rest)) acc
      (some (readSlice (writeFields (g :: fs) ++ '\n' :: rest)).1,
        (readSlice (writeFields (g :: fs) ++ '\n' :: rest)).2.1) (by simp)
      (by
        intro fuel buf hf
        obtain ⟨m, rfl⟩ : ∃ m, fuel = m + 1 := ⟨fuel - 1, by omega⟩
        rw [readSlice_cons_ne '"' _ (by decide), readSlice_cons_ne ',' _ (by decide)]
        exact quotedField_close_comma m _ _ buf)
      (by
        intro fuel h3 h4 _
        rw [readSlice_cons_ne ',' _ (by decide)]
        exact parseFields_unquoted_comma fuel f _ _ acc h3 h4)
      n hsafe hfuel
    rw [this]
    simp only [afterField]
    rw [ih g (acc ++ [f]) rest n hs2 hf2]
    simp

theorem writeField_head_ne_nl (f : List Char) : (writeField f).head? ≠ some '\n' := by
  by_cases hq : fieldNeedsQuotes f = true
  · rw [writeField_quoted f hq]
    simp
  · have hq2 : fieldNeedsQuotes f = false := by simpa using hq
    obtain ⟨h1, _, _, _⟩ := not_needsQuotes_chars f hq2
    rw [writeField_plain f hq2]
    cases f with
    | nil => simp
    | cons c f =>
      simp only [List.mem_cons, not_or] at h1
      simpa using fun e : c = '\n' => h1.1 e.symm

theorem writeFields_head_ne_nl (row : List (List Char)) :
    (writeFields row).head? ≠ some '\n' := by
  match row with
  | [] => simp [writeFields]
  | [f] => exact writeField_head_ne_nl f
  | f :: g :: fs =>
    rw [writeFields_cons_cons]
    have := writeField_head_ne_nl f
    cases hw : writeField f with
    | nil => simp
    | cons c w =>
      rw [hw] at this
      simpa using this

theorem writeFields_eq_nil (row : List (List Char)) (h : writeFields row = []) :
    row = [] ∨ row = [[]] := by
  match row with
  | [] => exact Or.inl rfl
  | [f] =>
    right
    rw [writeFields_single] at h
    by_cases hq : fieldNeedsQuotes f = true
    · rw [writeField_quoted f hq] at h
      exact absurd h (by simp)
    · have hq2 : fieldNeedsQuotes f = false := by simpa using hq
      rw [writeField_plain f hq2] at h
      rw [h]
  | f :: g :: fs =>
    rw [writeFields_cons_cons] at h
    exact absurd h (by simp)

theorem lengthNL_le_one (line : List Char) : lengthNL line ≤ 1 := by
  unfold lengthNL
  split <;> omega

theorem readRecord_csvWrite (row : List (List Char)) (rest : List Char) (fuel : Nat)
    (hrow : row ≠ []) (hne : writeFields row ≠ [])
    (hsafe : crSafe (csvWrite row ++ rest) = true)
    (hfuel : fuel > (csvWrite row ++ rest).length) :
    readRecord fuel (csvWrite row ++ rest) = .ok (some (row, rest)) := by
  obtain ⟨f, fs, rfl⟩ : ∃ f fs, row = f :: fs := by
    cases row with
    | nil => exact absurd rfl hrow
    | cons f fs => exact ⟨f, fs, rfl⟩
  have hS : csvWrite (f :: fs) ++ rest = writeFields (f :: fs) ++ '\n' :: rest := by
    simp [csvWrite]
  rw [hS] at hsafe hfuel ⊢
  obtain ⟨n, rfl⟩ : ∃ n, fuel = n + 1 := ⟨fuel - 1, by omega⟩
  have hnl : '\n' ∈ writeFields (f :: fs) ++ '\n' :: rest := by simp
  have hlen : ¬ (readSlice (writeFields (f :: fs) ++ '\n' :: rest)).1.length
      = lengthNL (readSlice (writeFields (f :: fs) ++ '\n' :: rest)).1 := by
    have hle := lengthNL_le_one (readSlice (writeFields (f :: fs) ++ '\n' :: rest)).1
    have hhead := writeFields_head_ne_nl (f :: fs)
    cases hw : writeFields (f :: fs) with
    | nil => exact absurd hw hne
    | cons c w =>
      rw [hw] at hhead hle
      have hc : c ≠ '\n' := by simpa using hhead
      have hne2 := readSlice_fst_ne_nil (w ++ '\n' :: rest) (by simp)
      have hpos := List.length_pos.mpr hne2
      rw [List.cons_append, readSlice_cons_ne c _ hc] at hle ⊢
      simp only [List.length_cons] at hle ⊢
      omega
  rw [readRecord, readLine_eq _ hnl hsafe]
  simp only [Bool.not_false, Bool.true_and, decide_eq_true_eq, hlen, if_false,
    Bool.false_eq_true]
  rw [parseFields_writeFields fs f [] rest (n + 1) hsafe hfuel]
  simp

theorem readAllLoop_nil (fuel fieldsPerRecord : Nat) (records : List (List (List Char))) :
    readAllLoop (fuel + 1) [] fieldsPerRecord records = .ok records := by
  simp [readAllLoop, readRecord, readLine, readSlice, lengthNL]

theorem readAllLoop_csvWriteAll (w : Nat) (t : List (List (List Char))) :
    ∀ (fieldsPerRecord : Nat) (records : List (List (List Char))) (fuel : Nat),
      (fieldsPerRecord = 0 ∨ fieldsPerRecord = w) →
      (∀ row ∈ t, row.length = w ∧ row ≠ [] ∧ writeFields row ≠ []) →
      crSafe (csvWriteAll t) = true →
      fuel > (csvWriteAll t).length →
      readAllLoop fuel (csvWriteAll t) fieldsPerRecord records = .ok (records ++ t) := by
  induction t with
  | nil =>
    intro fpr records fuel _ _ _ hfuel
    obtain ⟨n, rfl⟩ : ∃ n, fuel = n + 1 := ⟨fuel - 1, by omega⟩
    simpa [csvWriteAll] using readAllLoop_nil n fpr records
  | cons row t ih =>
    intro fpr records fuel hfpr hrows hsafe hfuel
    obtain ⟨n, rfl⟩ : ∃ n, fuel = n + 1 := ⟨fuel - 1, by omega⟩
    obtain ⟨hlen, hrow, hne⟩ := hrows row (by simp)
    have hrest : ∀ r ∈ t, r.length = w ∧ r ≠ [] ∧ writeFields r ≠ [] :=
      fun r hr => hrows r (by simp [hr])
    have hS : csvWriteAll (row :: t) = csvWrite row ++ csvWriteAll t := rfl
    rw [hS] at hsafe hfuel ⊢
    have hs2 : crSafe (csvWriteAll t) = true := crSafe_suffix _ _ hsafe
    have hf2 : n > (csvWriteAll t).length := by
      have : (csvWrite row).length > 0 := by simp [csvWrite]
      simp only [List.length_append] at hfuel
      omega
    have hwpos : 0 < w := by
      rw [← hlen]; exact List.length_pos.mpr hrow
    rw [readAllLoop, readRecord_csvWrite row _ (n + 1) hrow hne hsafe hfuel]
    simp only []
    rcases hfpr with h0 | hw
    · subst h0
      simp only [gt_iff_lt, lt_self_iff_false, if_false]
      rw [ih row.length (records ++ [row]) n (Or.inr hlen) hrest hs2 hf2]
      simp
    · subst hw
      simp only [gt_iff_lt, hwpos, if_true, hlen, ne_eq, not_true_eq_false, if_false]
      rw [ih fpr (records ++ [row]) n (Or.inr rfl) hrest hs2 hf2]
      simp

theorem crSafe_append (a b : List Char) (ha : crSafe a = true) (hb : crSafe b = true) :
    crSafe (a ++ b) = true := by
  induction a with
  | nil => simpa using hb
  | cons c a ih =>
    rw [crSafe_cons, Bool.and_eq_true] at ha
    rw [List.cons_append, crSafe_cons, Bool.and_eq_true]
    refine ⟨?_, ih ha.2⟩
    cases a with
    | nil =>
      by_cases hc : c = '\r'
      · simp [hc] at ha
      · simp [hc]
    | cons d a => simpa using ha.1

theorem crSafe_cons_ne (c : Char) (s : List Char) (hc : c ≠ '\r') :
    crSafe (c :: s) = crSafe s := by
  rw [crSafe_cons]
  simp [hc]

theorem crSafe_of_not_mem (s : List Char) (h : '\r' ∉ s) : crSafe s = true := by
  induction s with
  | nil => rfl
  | cons c s ih =>
    simp only [List.mem_cons, not_or] at h
    rw [crSafe_cons_ne c s (fun e => h.1 e.symm)]
    exact ih h.2

theorem hasCRLF_tail (c : Char) (f : List Char) (h : hasCRLF (c :: f) = false) :
    hasCRLF f = false := by
  cases f with
  | nil => rfl
  | cons d f =>
    simp only [hasCRLF, Bool.or_eq_false_iff] at h
    exact h.2

theorem crSafe_quoteBody (f : List Char) (h : hasCRLF f = false) :
    crSafe (quoteBody f ++ ['"']) = true := by
  induction f with
  | nil => rfl
  | cons c f ih =>
    have ih2 := ih (hasCRLF_tail c f h)
    by_cases hq : c = '"'
    · subst hq
      rw [quoteBody_cons_quote]
      simp only [List.cons_append]
      rw [crSafe_cons_ne _ _ (by decide), crSafe_cons_ne _ _ (by decide)]
      exact ih2
    · rw [quoteBody_cons_ne c f hq, List.cons_append, crSafe_cons, Bool.and_eq_true]
      refine ⟨?_, ih2⟩
      by_cases hc : c = '\r'
      · subst hc
        cases f with
        | nil => simp [quoteBody]
        | cons d f =>
          have hd : d ≠ '\n' := by
            intro e
            subst e
            simp [hasCRLF] at h
          by_cases hdq : d = '"'
          · subst hdq
            simp [quoteBody]
          · simp [quoteBody, hdq, hd]
      · simp [hc]

theorem crSafe_writeField (f : List Char) (h : hasCRLF f = false) :
    crSafe (writeField f) = true := by
  by_cases hq : fieldNeedsQuotes f = true
  · rw [writeField_quoted f hq, crSafe_cons_ne _ _ (by decide)]
    exact crSafe_quoteBody f h
  · have hq2 : fieldNeedsQuotes f = false := by simpa using hq
    rw [writeField_plain f hq2]
    exact crSafe_of_not_mem f (not_needsQuotes_chars f hq2).2.1

theorem crSafe_writeFields (row : List (List Char)) (h : ∀ f ∈ row, hasCRLF f = false) :
    crSafe (writeFields row) = true := by
  match row with
  | [] => rfl
  | [f] => exact crSafe_writeField f (h f (by simp))
  | f :: g :: fs =>
    rw [writeFields_cons_cons]
    refine crSafe_append _ _ (crSafe_writeField f (h f (by simp))) ?_
    rw [crSafe_cons_ne _ _ (by decide)]
    exact crSafe_writeFields (g :: fs) (fun x hx => h x (by simp [hx]))

theorem crSafe_csvWriteAll (t : List (List (List Char)))
    (h : ∀ row ∈ t, ∀ f ∈ row, hasCRLF f = false) : crSafe (csvWriteAll t) = true := by
  induction t with
  | nil => rfl
  | cons row t ih =>
    have h1 : crSafe (csvWrite row) = true :=
      crSafe_append _ _ (crSafe_writeFields row (h row (by simp))) rfl
    exact crSafe_append _ _ h1 (ih (fun r hr => h r (by simp [hr])))

theorem csvReadAll_csvWriteAll (w : Nat) (t : List (List (List Char)))
    (hrows : ∀ row ∈ t, row.length = w ∧ row ≠ [] ∧ row ≠ [[]])
    (hcr : ∀ row ∈ t, ∀ f ∈ row, hasCRLF f = false) :
    csvReadAll (csvWriteAll t) = .ok t := by
  have h := readAllLoop_csvWriteAll w t 0 [] ((csvWriteAll t).length + 1) (Or.inl rfl)
    (fun row hr => by
      obtain ⟨h1, h2, h3⟩ := hrows row hr
      refine ⟨h1, h2, fun hnil => ?_⟩
      rcases writeFields_eq_nil row hnil with e | e
      · exact h2 e
      · exact h3 e)
    (crSafe_csvWriteAll t hcr) (by omega)
  simpa [csvReadAll] using h

theorem map_data_eq_singleton_nil (row : List String)
    (e : row.map String.data = [[]]) : row = [""] := by
  match row with
  | [] => simp at e
  | [f] =>
    have hf : f.data = [] := by simpa using e
    have : f = "" := String.ext hf
    rw [this]
  | f :: g :: fs => simp at e

theorem map_mk_data (row : List String) :
    (row.map String.data).map String.mk = row := by
  induction row with
  | nil => rfl
  | cons f fs ih =>
    simp only [List.map_cons, ih]

/-! ## Sample runs of the library models -/

theorem Sprintf0_samples :
    Sprintf0 "acme" = "acme" ∧ Sprintf0 "a%%b" = "a%b" ∧
    Sprintf0 "100%" = "100%!(NOVERB)" ∧ Sprintf0 "a%db" = "a%!d(MISSING)b" ∧
    Sprintf0 "% 05.2f!" = "%!f(MISSING)!" ∧ Sprintf0 "%[1]d" = "%!d(BADINDEX)" ∧
    Sprintf0 "%*d" = "%!(BADWIDTH)%!d(MISSING)" ∧
    Sprintf0 "%.*d" = "%!(BADPREC)%!d(MISSING)" := by
  refine ⟨by rfl, by rfl, by rfl, by rfl, by rfl, by rfl, by rfl, by rfl⟩

theorem formatTime_samples :
    formatTime ⟨2024, 1, 1, 0, 0, 0⟩ = "2024-01-01 00:00:00" ∧
    formatTime ⟨987, 12, 31, 23, 59, 59⟩ = "0987-12-31 23:59:59" ∧
    SprintfD (-42) = "-42" ∧ SprintfD 0 = "0" ∧ SprintfD 65535 = "65535" := by
  refine ⟨by rfl, by rfl, by rfl, by rfl, by rfl⟩

theorem csv_samples :
    SaveToCSV [["a", "b c", " d"], ["x,y", "q\"r", "l\nm"]]
      = "a,b c,\" d\"\n\"x,y\",\"q\"\"r\",\"l\nm\"\n" ∧
    ReadCSV "a,b c,\" d\"\n\"x,y\",\"q\"\"r\",\"l\nm\"\n"
      = .ok [["a", "b c", " d"], ["x,y", "q\"r", "l\nm"]] ∧
    ReadCSV "a,b\r\nc,d" = .ok [["a", "b"], ["c", "d"]] ∧
    ReadCSV "a,\n\nb,c\r" = .ok [["a", ""], ["b", "c"]] ∧
    ReadCSV "a,b\nc\n" = .error .fieldCount ∧
    ReadCSV "a\"b\n" = .error .bareQuote ∧
    ReadCSV "\"a\"b\n" = .error .quote ∧
    ReadCSV "\"ab\n" = .error .quote := by
  refine ⟨by rfl, by rfl, by rfl, by rfl, by rfl, by rfl, by rfl, by rfl⟩

/-! ## The claims -/

/-- C1: on a table with a header row whose data rows are as wide as the header,
the data rows built by the projection loop of `FilterColumnsFromMinIO` are, one
per input data row and in input order, the fields `row[indexOf(header,
TrimSpace(c))]` for each requested `c`, in requested order, whose trimmed name
occurs in the header (absent names contribute nothing); the data-row count is
unchanged, and `indexOf` is the first position holding the name. -/
theorem C1_projected_data_rows (header : List String) (rows : List (List String))
    (cols : List String) (hwf : ∀ row ∈ rows, row.length = header.length) :
    ∃ out, FilterColumnsFromMinIO (header :: rows) cols = .ok out ∧
      out.tail = rows.map (fun row =>
        (cols.filter (fun c => decide (TrimSpace c ∈ header))).map
          (fun c => row.getD (indexOf header (TrimSpace c)).toNat "")) ∧
      out.tail.length = rows.length ∧
      (∀ c ∈ cols, TrimSpace c ∈ header →
        ∃ k : Nat, indexOf header (TrimSpace c) = (k : Int) ∧ k < header.length ∧
          header[k]? = some (TrimSpace c) ∧
          (∀ j, j < k → header[j]? ≠ some (TrimSpace c)) ∧
          ∀ row ∈ rows, row[k]? = some (row.getD k "")) ∧
      (∀ c ∈ cols, TrimSpace c ∉ header → indexOf header (TrimSpace c) = -1) := by
  refine ⟨_, FilterColumnsFromMinIO_eq header rows cols hwf, rfl, by simp, ?_, ?_⟩
  · intro c _ hm
    obtain ⟨k, hk, hlt, hget, hfirst⟩ := indexOf_first header (TrimSpace c) hm
    refine ⟨k, hk, hlt, hget, hfirst, ?_⟩
    intro row hrow
    have hl : k < row.length := by rw [hwf row hrow]; exact hlt
    rw [List.getElem?_eq_getElem hl, List.getD_eq_getElem _ _ hl]
  · intro c _ hm
    exact indexOf_of_not_mem hm

/-- C1 at a concrete table: a duplicated header name, a name requested twice,
an absent name and an untrimmed name. -/
theorem C1_projected_data_rows_witness :
    (∀ row ∈ [["1", "2", "3"], ["4", "5", "6"]], row.length = ["a", "b", "a"].length) ∧
    ∃ out, FilterColumnsFromMinIO (["a", "b", "a"] :: [["1", "2", "3"], ["4", "5", "6"]])
        [" a", "z", "b", "a "] = .ok out ∧
      out.tail = [["1", "2", "3"], ["4", "5", "6"]].map (fun row =>
        ([" a", "z", "b", "a "].filter
            (fun c => decide (TrimSpace c ∈ ["a", "b", "a"]))).map
          (fun c => row.getD (indexOf ["a", "b", "a"] (TrimSpace c)).toNat "")) ∧
      out.tail.length = [["1", "2", "3"], ["4", "5", "6"]].length ∧
      (∀ c ∈ [" a", "z", "b", "a "], TrimSpace c ∈ ["a", "b", "a"] →
        ∃ k : Nat, indexOf ["a", "b", "a"] (TrimSpace c) = (k : Int) ∧
          k < ["a", "b", "a"].length ∧
          ["a", "b", "a"][k]? = some (TrimSpace c) ∧
          (∀ j, j < k → ["a", "b", "a"][j]? ≠ some (TrimSpace c)) ∧
          ∀ row ∈ [["1", "2", "3"], ["4", "5", "6"]], row[k]? = some (row.getD k "")) ∧
      (∀ c ∈ [" a", "z", "b", "a "], TrimSpace c ∉ ["a", "b", "a"] →
        indexOf ["a", "b", "a"] (TrimSpace c) = -1) :=
  ⟨by decide, C1_projected_data_rows ["a", "b", "a"] [["1", "2", "3"], ["4", "5", "6"]]
    [" a", "z", "b", "a "] (by decide)⟩

/-- C2 (failing input): for the table with header `a` and one data row, the
request `z` names no header column, yet the header row emitted by
`FilterColumnsFromMinIO` is `z`, not the empty list, while the data row is
zero-width. -/
theorem C2_header_keeps_unmatched_name :
    "z" ∉ ["a"] ∧
    FilterColumnsFromMinIO [["a"], ["1"]] ["z"] = .ok [["z"], []] ∧
    FilterColumns [["a"], ["1"]] ["z"] = [[], []] := by
  refine ⟨by decide, by rfl, by rfl⟩

/-- C3 (failing input): the request field `SrcIP, DstIP` split at commas and
projected from the full table with the single data row of the scenario gives
the header `SrcIP`, ` DstIP` (the second name keeps its leading space) and the
data row `10.0.0.1`, `10.0.0.2`. -/
theorem C3_header_keeps_untrimmed_token :
    SplitComma "SrcIP, DstIP" = ["SrcIP", " DstIP"] ∧
    FilterColumnsFromMinIO
      [["org_name", "SrcIP", "SrcPort", "DstIP", "DstPort", "PacketCount", "ByteCount",
          "Timestamp"],
        ["acme", "10.0.0.1", "443", "10.0.0.2", "80", "5", "1500", "2024-01-01 00:00:00"]]
      (SplitComma "SrcIP, DstIP")
      = .ok [["SrcIP", " DstIP"], ["10.0.0.1", "10.0.0.2"]] ∧
    [["SrcIP", " DstIP"], ["10.0.0.1", "10.0.0.2"]]
      ≠ [["SrcIP", "DstIP"], ["10.0.0.1", "10.0.0.2"]] := by
  refine ⟨by rfl, by rfl, by decide⟩

/-- C4 (failing input): on a well-formed table with header `a`, `b` and two data
rows, the request `a`, `c` makes `FilterColumnsFromMinIO` emit a two-name header
over one-field data rows, so the output breaks the table invariant; `ReadCSV`
rejects the bytes written for it with a field-count error, while the sibling
`FilterColumns` keeps header and data rows aligned. -/
theorem C4_output_rows_narrower_than_header :
    (∀ row ∈ [["1", "2"], ["3", "4"]], row.length = ["a", "b"].length) ∧
    (∃ out, FilterColumnsFromMinIO [["a", "b"], ["1", "2"], ["3", "4"]] ["a", "c"] = .ok out ∧
      out = [["a", "c"], ["1"], ["3"]] ∧
      ¬ (∀ row ∈ out.tail, row.length = (out.headD []).length) ∧
      ReadCSV (SaveToCSV out) = .error .fieldCount) ∧
    FilterColumns [["a", "b"], ["1", "2"], ["3", "4"]] ["a", "c"] = [["a"], ["1"], ["3"]] := by
  refine ⟨by decide, ⟨_, rfl, rfl, by decide, by rfl⟩, by rfl⟩

/-- C6 (failing input): an empty source decodes to the empty table, on which
the slice expression `data[1:]` of `FilterColumnsFromMinIO` panics for every
requested column list, whereas the sibling `FilterColumns` returns the table
with zero rows. -/
theorem C6_empty_table_panics (cols : List String) :
    ReadCSV "" = .ok [] ∧
    FilterColumnsFromMinIO [] cols = .error .sliceBoundsOutOfRange ∧
    FilterColumns [] cols = [] := by
  exact ⟨rfl, rfl, rfl⟩

/-- C7: on a table with a header row whose data rows are as wide as the header,
`data[0]`, `data[1:]` and every `row[index]` with `index = indexOf(data[0],
TrimSpace(col)) != -1` are in bounds, and the projection loop of
`FilterColumnsFromMinIO` ends without a panic. -/
theorem C7_projection_total (header : List String) (rows : List (List String))
    (cols : List String) (hwf : ∀ row ∈ rows, row.length = header.length) :
    index (header :: rows) 0 = .ok header ∧
    sliceFrom1 (header :: rows) = .ok rows ∧
    (∀ row ∈ rows, ∀ c ∈ cols, indexOf header (TrimSpace c) ≠ -1 →
      0 ≤ indexOf header (TrimSpace c) ∧
      indexOf header (TrimSpace c) < (row.length : Int) ∧
      ∃ v, index row (indexOf header (TrimSpace c)) = .ok v) ∧
    (∀ row ∈ rows, ∃ newRow, minioRowLoop (header :: rows) row cols [] = .ok newRow) ∧
    ∃ out, FilterColumnsFromMinIO (header :: rows) cols = .ok out := by
  refine ⟨by simp [index], rfl, ?_, ?_, _, FilterColumnsFromMinIO_eq header rows cols hwf⟩
  · intro row hrow c _ hne
    have hm : TrimSpace c ∈ header := by
      by_contra hcon
      exact hne (indexOf_of_not_mem hcon)
    have hlt : header.indexOf (TrimSpace c) < row.length := by
      rw [hwf row hrow]; exact List.indexOf_lt_length.mpr hm
    rw [indexOf_of_mem hm]
    refine ⟨by omega, by omega, _, index_natCast _ _ hlt⟩
  · intro row hrow
    exact ⟨_, minioRowLoop_eq header rows row (hwf row hrow) cols []⟩

/-- C7 at a concrete well-formed table. -/
theorem C7_projection_total_witness :
    (∀ row ∈ [["1", "2"], ["3", "4"]], row.length = ["a", "b"].length) ∧
    ∃ out, FilterColumnsFromMinIO (["a", "b"] :: [["1", "2"], ["3", "4"]]) ["b", "q", " a "]
      = .ok out :=
  ⟨by decide,
    (C7_projection_total ["a", "b"] [["1", "2"], ["3", "4"]] ["b", "q", " a "]
      (by decide)).2.2.2.2⟩

/-- C10: on a table with a header row of pairwise distinct names whose data
rows are as wide as the header, and for requested names without leading or
trailing white space, `FilterColumnsFromCSV` and `FilterColumnsFromMinIO`
both end without a panic and write the same table. -/
theorem C10_local_and_remote_projector_agree (header : List String)
    (rows : List (List String)) (cols : List String)
    (hwf : ∀ row ∈ rows, row.length = header.length) (hnd : header.Nodup)
    (htrim : ∀ c ∈ cols, noSurroundingSpace c) :
    ∃ out, FilterColumnsFromCSV (header :: rows) cols = .ok out ∧
      FilterColumnsFromMinIO (header :: rows) cols = .ok out := by
  refine ⟨_, ?_, FilterColumnsFromMinIO_eq header rows cols hwf⟩
  simp [FilterColumnsFromCSV, index, sliceFrom1, bind, Except.bind,
    csvLoop_eq header hnd cols htrim rows hwf]

/-- C10 at a concrete table with distinct header names. -/
theorem C10_local_and_remote_projector_agree_witness :
    (∀ row ∈ [["1", "2"], ["3", "4"]], row.length = ["a", "b"].length) ∧
    ["a", "b"].Nodup ∧ (∀ c ∈ ["b", "z", "a", "b"], noSurroundingSpace c) ∧
    ∃ out, FilterColumnsFromCSV (["a", "b"] :: [["1", "2"], ["3", "4"]]) ["b", "z", "a", "b"]
        = .ok out ∧
      FilterColumnsFromMinIO (["a", "b"] :: [["1", "2"], ["3", "4"]]) ["b", "z", "a", "b"]
        = .ok out :=
  ⟨by decide, by decide, by simp [noSurroundingSpace, isSpace],
    C10_local_and_remote_projector_agree ["a", "b"] [["1", "2"], ["3", "4"]]
      ["b", "z", "a", "b"] (by decide) (by decide) (by simp [noSurroundingSpace, isSpace])⟩

/-- C5 (failing input): for the single record of the scenario with the
organization name `100%`, the first field of the row the handler writes is
`100%!(NOVERB)`, not the name; with the name `acme` the row is the one of the
scenario, and for zero records the table is the header row alone. -/
theorem C5_org_name_used_as_format :
    handlerTable [⟨"100%", "10.0.0.1", 443, "10.0.0.2", 80, 5, 1500, ⟨2024, 1, 1, 0, 0, 0⟩⟩]
      = [["org_name", "SrcIP", "SrcPort", "DstIP", "DstPort", "PacketCount", "ByteCount",
            "Timestamp"],
          ["100%!(NOVERB)", "10.0.0.1", "443", "10.0.0.2", "80", "5", "1500",
            "2024-01-01 00:00:00"]] ∧
    handlerTable [⟨"acme", "10.0.0.1", 443, "10.0.0.2", 80, 5, 1500, ⟨2024, 1, 1, 0, 0, 0⟩⟩]
      = [["org_name", "SrcIP", "SrcPort", "DstIP", "DstPort", "PacketCount", "ByteCount",
            "Timestamp"],
          ["acme", "10.0.0.1", "443", "10.0.0.2", "80", "5", "1500",
            "2024-01-01 00:00:00"]] ∧
    handlerTable [] = [header] := by
  refine ⟨by rfl, by rfl, by rfl⟩

/-- C8 (counterexamples): three well-formed tables whose encoding does not
decode to the table.  The one-column table whose header is the empty name and
the zero-column table are both written as a single empty line, which the
reader skips; a carriage return directly before a line feed inside a field is
dropped by the reader. -/
theorem C8_round_trip_counterexample :
    (SaveToCSV [[""]] = "\n" ∧ ReadCSV (SaveToCSV [[""]]) = .ok [] ∧
      ReadCSV (SaveToCSV [[""]]) ≠ .ok [[""]]) ∧
    (SaveToCSV [[]] = "\n" ∧ ReadCSV (SaveToCSV [[]]) = .ok [] ∧
      ReadCSV (SaveToCSV [[]]) ≠ .ok [[]]) ∧
    (SaveToCSV [["a\r\nb"]] = "\"a\r\nb\"\n" ∧
      ReadCSV (SaveToCSV [["a\r\nb"]]) = .ok [["a\nb"]] ∧
      ReadCSV (SaveToCSV [["a\r\nb"]]) ≠ .ok [["a\r\nb"]]) := by
  refine ⟨⟨by rfl, by rfl, by decide⟩, ⟨by rfl, by rfl, by decide⟩,
    ⟨by rfl, by rfl, by decide⟩⟩

/-- C8 (amended): for every table with a header row of at least one column,
whose data rows are as wide as the header, in which no row is a single empty
field and no field holds a carriage return directly followed by a line feed,
decoding the bytes produced by encoding the table succeeds and returns exactly
the table. -/
theorem C8_round_trip_amended (header : List String) (rows : List (List String))
    (hwf : ∀ row ∈ rows, row.length = header.length)
    (hhdr : header ≠ [])
    (hblank : ∀ row ∈ header :: rows, row ≠ [""])
    (hcr : ∀ row ∈ header :: rows, ∀ f ∈ row, hasCRLF f.data = false) :
    ReadCSV (SaveToCSV (header :: rows)) = .ok (header :: rows) := by
  have hlen : ∀ row ∈ header :: rows, row.length = header.length := by
    intro row hr
    rcases List.mem_cons.mp hr with e | e
    · rw [e]
    · exact hwf row e
  have hpos : 0 < header.length := List.length_pos.mpr hhdr
  have hrt := csvReadAll_csvWriteAll header.length
    ((header :: rows).map (fun row => row.map String.data))
    (by
      intro r hr
      obtain ⟨row, hrow, rfl⟩ := List.mem_map.mp hr
      refine ⟨by simpa using hlen row hrow, ?_, ?_⟩
      · intro e
        have hl := hlen row hrow
        have : row = [] := by simpa using e
        rw [this] at hl
        simp at hl
        omega
      · intro e
        exact hblank row hrow (map_data_eq_singleton_nil row e))
    (by
      intro r hr f hf
      obtain ⟨row, hrow, rfl⟩ := List.mem_map.mp hr
      obtain ⟨g, hg, rfl⟩ := List.mem_map.mp hf
      exact hcr row hrow g hg)
  simp only [ReadCSV, SaveToCSV, hrt, List.map_map]
  congr 1
  have hid : ((fun row : List (List Char) => row.map String.mk) ∘
      fun row : List String => row.map String.data) = id := by
    funext row
    exact map_mk_data row
  rw [hid, List.map_id]

/-- C8 (amended) at a concrete table with quoted, multi-line and empty
fields. -/
theorem C8_round_trip_amended_witness :
    (∀ row ∈ [["x,y", "q\"r", "l\nm\r"], ["", " ", ""]],
      row.length = ["org_name", "SrcIP", "Timestamp"].length) ∧
    ["org_name", "SrcIP", "Timestamp"] ≠ [] ∧
    (∀ row ∈ ["org_name", "SrcIP", "Timestamp"] ::
      [["x,y", "q\"r", "l\nm\r"], ["", " ", ""]], row ≠ [""]) ∧
    (∀ row ∈ ["org_name", "SrcIP", "Timestamp"] ::
      [["x,y", "q\"r", "l\nm\r"], ["", " ", ""]], ∀ f ∈ row, hasCRLF f.data = false) ∧
    ReadCSV (SaveToCSV (["org_name", "SrcIP", "Timestamp"] ::
        [["x,y", "q\"r", "l\nm\r"], ["", " ", ""]]))
      = .ok (["org_name", "SrcIP", "Timestamp"] ::
        [["x,y", "q\"r", "l\nm\r"], ["", " ", ""]]) :=
  ⟨by decide, by decide, by decide, by decide,
    C8_round_trip_amended ["org_name", "SrcIP", "Timestamp"]
      [["x,y", "q\"r", "l\nm\r"], ["", " ", ""]]
      (by decide) (by decide) (by decide) (by decide)⟩

/-- C9 (failing input, every pair of tokens): neither the path removed by
`FilterColumnsFromMinIO` nor the path removed by `generateAndSendReport` is the
path of the local file the handler created. -/
theorem C9_removed_paths_are_not_the_local_file (outputFileID filteredOutputFileID : String) :
    minioRemovedPath filteredOutputFileID ≠ handlerOutputFileName outputFileID ∧
    reportRemovedPath outputFileID ≠ handlerOutputFileName outputFileID := by
  constructor
  · intro h
    have := congrArg String.data h
    simp [minioRemovedPath, minioOutputFileName, handlerOutputFileName] at this
  · intro h
    have := congrArg String.data h
    simp [reportRemovedPath, handlerOutputFilePath, handlerOutputFileName] at this

end Reporting
